import Mathlib

/-!
Shallow embedding of the `archetype` snapshot-testing engine
(src/src/lib.rs).  The public entry point `snap key subject` resolves the
key to a path under a fixed snapshot root, writes the candidate on first
run (unless CI mode is active, in which case it fails), and otherwise
compares the stored reference with the candidate using the `similar`
crate's line diff (`TextDiff::from_lines`), printing a marked diff and
failing on mismatch.

Modelling choices:
* The filesystem is an association list from paths to file contents;
  `fs::write` prepends a binding, `Path::exists` and `fs::read_to_string`
  look a binding up.  I/O never fails in the model (the Rust code aborts
  the test on any I/O failure, a path the claims do not touch).
* The `similar` crate's line diff is embedded as a
  longest-common-subsequence alignment over line tokens; a token is a
  line together with its trailing newline when present, exactly how
  `TextDiff::from_lines` tokenises `\n`-terminated text.  The crate's
  `ratio`, `2 * matches / (len_old + len_new)` with `1.0` for two empty
  token sequences, is computed exactly in `ℚ` (the crate rounds to
  `f32`).
* `println!` and `print!` output is modelled as the list of emitted
  records: one header banner, one record per change of the diff, one
  footer banner.
* `option_env!("CI").map(|v| v == "true").unwrap_or(false)` is modelled
  by `ciMode` applied to an optional environment value; `snap` receives
  the resulting `Bool` as a parameter.
* `TextDiff::ratio()` returns an `f32` and the code branches on
  `!= 1.0`.  Two comparators are modelled.  `ratio` is the
  exact-arithmetic idealisation in `ℚ`; `snap` uses it.  `ratioF32`
  models the f32 computation bit-faithfully: `fl` is round-to-nearest,
  ties-to-even at 24 significand bits (binary32 with unbounded exponent,
  which coincides with real binary32 on every value reached here — all
  are 0 or lie well inside the normal range, so no overflow or
  subnormals occur), and `ratioF32 m t` rounds each step of
  `2.0 * (m as f32) / (t as f32)`.  `snapF32` is `snap` with the
  faithful guard.  The two agree whenever the token counts total at
  most `2^24`; on astronomically long inputs the f32 ratio of a
  differing pair can round to exactly `1.0` and `snapF32` passes where
  the idealisation fails.
-/

namespace Archetype

/-- Change kinds of the line diff, as in `similar::ChangeTag`. -/
inductive ChangeTag where
  | Delete
  | Insert
  | Equal
deriving DecidableEq, Repr

/-- Split a character list into line tokens, each token keeping its
trailing newline when present; mirrors the tokenisation performed by
`similar::TextDiff::from_lines` on `\n`-terminated text. -/
def splitLinesChars : List Char → List (List Char)
  | [] => []
  | c :: rest =>
      if c = '\n' then [c] :: splitLinesChars rest
      else
        match splitLinesChars rest with
        | [] => [[c]]
        | l :: ls => (c :: l) :: ls

/-- Line tokens of a string, newline retained. -/
def splitLines (s : String) : List String :=
  (splitLinesChars s.data).map String.mk

/-- Concatenation of character lists; inverse of `splitLinesChars`. -/
def joinChars : List (List Char) → List Char
  | [] => []
  | l :: ls => l ++ joinChars ls

/-- Inner step of the longest-common-subsequence length: `f` stands for
`lcsLen as` so the recursion is structural in both arguments. -/
def lcsStep (a : String) (f : List String → Nat) : List String → Nat
  | [] => 0
  | b :: bs => if a = b then f bs + 1 else max (f (b :: bs)) (lcsStep a f bs)

/-- Length of a longest common subsequence of two line-token lists; this
is the number of matched lines of the alignment computed by the
`similar` crate's diff. -/
def lcsLen : List String → List String → Nat
  | [], _ => 0
  | a :: as, bs => lcsStep a (lcsLen as) bs

/-- Inner step of the change-sequence computation: `fD` stands for
`diffChanges as` and `fL` for `lcsLen as`. -/
def diffStep (a : String) (fD : List String → List (ChangeTag × String))
    (fL : List String → Nat) : List String → List (ChangeTag × String)
  | [] => (ChangeTag.Delete, a) :: fD []
  | b :: bs =>
      if a = b then (ChangeTag.Equal, a) :: fD bs
      else if lcsStep a fL bs ≤ fL (b :: bs) then
        (ChangeTag.Delete, a) :: fD (b :: bs)
      else
        (ChangeTag.Insert, b) :: diffStep a fD fL bs

/-- The aligned change sequence between old line tokens and new line
tokens: the list iterated by `diff.iter_all_changes()` — old lines come
out tagged `Delete`, new lines tagged `Insert`, matched lines tagged
`Equal`, in document order. -/
def diffChanges : List String → List String → List (ChangeTag × String)
  | [], bs => bs.map (fun x => (ChangeTag.Insert, x))
  | a :: as, bs => diffStep a (diffChanges as) (lcsLen as) bs

/-- Number of `Equal` records of a change sequence. -/
def countEq : List (ChangeTag × String) → Nat
  | [] => 0
  | c :: cs => (if c.1 = ChangeTag.Equal then 1 else 0) + countEq cs

/-- Matched-line count of the alignment, the `matches` of
`similar`'s `ratio`. -/
def matchCount (as bs : List String) : Nat :=
  countEq (diffChanges as bs)

/-- The similarity ratio `2 * matches / (len_old + len_new)` of
`similar::TextDiff::ratio`, computed exactly in `ℚ`; two empty token
sequences give `1`.  This is the exact-arithmetic idealisation of the
crate's f32 value; the bit-faithful rounded version is `ratioF32`. -/
def ratio (as bs : List String) : ℚ :=
  if as.length + bs.length = 0 then 1
  else (2 * matchCount as bs : ℚ) / ((as.length + bs.length : Nat) : ℚ)

/-- The filesystem: path-to-content bindings, newest first. -/
abbrev FS := List (String × String)

/-- `fs::read_to_string` / `Path::exists`: the newest binding of a path. -/
def lookup : FS → String → Option String
  | [], _ => none
  | (p, c) :: rest, q => if p = q then some c else lookup rest q

/-- `fs::write`: bind a path to fresh content. -/
def write (fs : FS) (p c : String) : FS :=
  (p, c) :: fs

/-- The snapshot root directory pushed onto the manifest directory. -/
def snapRoot : String := "snapshots"

/-- The fixed snapshot file extension. -/
def snapExt : String := ".snap"

/-- Key-to-path resolution: `snapshots/<key>.snap`. -/
def snapPath (key : String) : String :=
  snapRoot ++ "/" ++ key ++ snapExt

/-- The marker printed in front of each change line. -/
def sign : ChangeTag → String
  | ChangeTag.Delete => "-┃"
  | ChangeTag.Insert => "+┃"
  | ChangeTag.Equal => " ┃"

/-- The header banner printed before the change lines. -/
def header (key : String) : String :=
  " ┏━━━━━━━━ " ++ key ++ " ━━━━━"

/-- The footer banner printed after the change lines. -/
def footer (key : String) : String :=
  " ┗━━━━━━━━ " ++ key ++ " ━━━━━"

/-- The records printed on a mismatch: header banner, one record per
change (marker followed by the change's line token), footer banner. -/
def renderDiff (key : String) (changes : List (ChangeTag × String)) :
    List String :=
  header key :: (changes.map (fun c => sign c.1 ++ c.2) ++ [footer key])

/-- Result of one `snap` call. -/
inductive Outcome where
  | pass
  | written
  | missingSnapshot (key : String)
  | mismatch (path : String)
deriving DecidableEq, Repr

/-- Whether the outcome is a test failure (a Rust `assert!(false, ..)`). -/
def Outcome.isFail : Outcome → Bool
  | Outcome.missingSnapshot _ => true
  | Outcome.mismatch _ => true
  | _ => false

/-- The panic message attached to a failing outcome, as formatted by the
two `assert!(false, ..)` calls of `snap`. -/
def Outcome.message : Outcome → Option String
  | Outcome.missingSnapshot k => some ("snapshot missing for " ++ k)
  | Outcome.mismatch p => some ("snapshot mismatch at " ++ p)
  | _ => none

/-- Everything one `snap` call produces: the filesystem afterwards, the
pass/fail outcome, and the printed records. -/
structure SnapResult where
  fs : FS
  outcome : Outcome
  output : List String
deriving DecidableEq, Repr

/-- CI detection: `option_env!("CI").map(|v| v == "true").unwrap_or(false)`. -/
def ciMode (env : Option String) : Bool :=
  (env.map (fun v => v == "true")).getD false

/-- The snapshot engine `archetype::snap`.  `ci` is the compile-time CI
flag.  If no reference exists at the resolved path: fail in CI mode,
otherwise write the candidate verbatim.  If a reference exists: diff it
against the candidate line by line, pass on ratio `1`, otherwise print
the rendered diff and fail. -/
def snap (ci : Bool) (fs : FS) (key : String) (subject : String) :
    SnapResult :=
  let path := snapPath key
  match lookup fs path with
  | none =>
      if ci then ⟨fs, Outcome.missingSnapshot key, []⟩
      else ⟨write fs path subject, Outcome.written, []⟩
  | some stored =>
      let changes := diffChanges (splitLines stored) (splitLines subject)
      if ratio (splitLines stored) (splitLines subject) = 1 then
        ⟨fs, Outcome.pass, []⟩
      else
        ⟨fs, Outcome.mismatch path, renderDiff key changes⟩

/-- Round a rational to an integer, ties to even: the rounding used by
IEEE-754 binary arithmetic in its default mode. -/
def rndEven (x : ℚ) : ℤ :=
  if x - ⌊x⌋ < 1/2 then ⌊x⌋
  else if 1/2 < x - ⌊x⌋ then ⌊x⌋ + 1
  else if ⌊x⌋ % 2 = 0 then ⌊x⌋ else ⌊x⌋ + 1

/-- Round a nonnegative rational to 24 significand bits, nearest,
ties-to-even: the exact value of the `f32` nearest to `q`.  The exponent
is unbounded, which agrees with binary32 wherever no overflow or
subnormal occurs — true of every value arising in `ratioF32` here. -/
def fl (q : ℚ) : ℚ :=
  if q ≤ 0 then 0
  else (rndEven (q * 2 ^ (23 - Int.log 2 q)) : ℚ) * 2 ^ (Int.log 2 q - 23)

/-- The exact value of the `f32` similarity ratio the code compares with
`1.0`: `2.0 * (matches as f32) / (len as f32)`, each step rounded to
binary32, and `1.0` when there are no tokens at all.  This is the
bit-faithful counterpart of the idealised `ratio`. -/
def ratioF32 (m t : ℕ) : ℚ :=
  if t = 0 then 1
  else fl (fl (2 * fl m) / fl t)

/-- The snapshot engine with the comparison guard at f32 precision:
identical to `snap` except that the pass/fail decision compares the
rounded `ratioF32` with `1`, exactly as `diff.ratio() != 1.0` does. -/
def snapF32 (ci : Bool) (fs : FS) (key : String) (subject : String) :
    SnapResult :=
  let path := snapPath key
  match lookup fs path with
  | none =>
      if ci then ⟨fs, Outcome.missingSnapshot key, []⟩
      else ⟨write fs path subject, Outcome.written, []⟩
  | some stored =>
      let as := splitLines stored
      let bs := splitLines subject
      if ratioF32 (matchCount as bs) (as.length + bs.length) = 1 then
        ⟨fs, Outcome.pass, []⟩
      else
        ⟨fs, Outcome.mismatch path, renderDiff key (diffChanges as bs)⟩

/-- Line tokens of a reference of `2^26 - 1` identical lines, used to
exhibit the f32 rounding failure of the comparison guard. -/
def bigLines : List (List Char) := List.replicate 67108863 ['a', '\n']

/-- A reference text of `2^26` lines "a\n". -/
def bigStored : String :=
  String.mk (joinChars (bigLines ++ [['a', '\n']]))

/-- A candidate text of `2^26` lines equal to `bigStored` except that
the last line reads "b\n". -/
def bigSubject : String :=
  String.mk (joinChars (bigLines ++ [['b', '\n']]))

/-! ### Equation lemmas -/

theorem lcsLen_nil_left (bs : List String) : lcsLen [] bs = 0 := rfl

theorem lcsLen_cons_nil (a : String) (as : List String) :
    lcsLen (a :: as) [] = 0 := rfl

theorem lcsLen_nil_right : ∀ (as : List String), lcsLen as [] = 0 := by
  intro as
  cases as <;> rfl

theorem lcsLen_cons_cons (a b : String) (as bs : List String) :
    lcsLen (a :: as) (b :: bs) =
      if a = b then lcsLen as bs + 1
      else max (lcsLen as (b :: bs)) (lcsLen (a :: as) bs) := rfl

theorem diffChanges_nil (bs : List String) :
    diffChanges [] bs = bs.map (fun x => (ChangeTag.Insert, x)) := rfl

theorem diffChanges_cons_nil (a : String) (as : List String) :
    diffChanges (a :: as) [] = (ChangeTag.Delete, a) :: diffChanges as [] := rfl

theorem diffChanges_cons_cons (a b : String) (as bs : List String) :
    diffChanges (a :: as) (b :: bs) =
      if a = b then (ChangeTag.Equal, a) :: diffChanges as bs
      else if lcsLen (a :: as) bs ≤ lcsLen as (b :: bs) then
        (ChangeTag.Delete, a) :: diffChanges as (b :: bs)
      else
        (ChangeTag.Insert, b) :: diffChanges (a :: as) bs := rfl

/-! ### The matched-line count of the alignment -/

theorem lcsLen_le_left : ∀ (as bs : List String), lcsLen as bs ≤ as.length := by
  intro as
  induction as with
  | nil => intro bs; simp [lcsLen_nil_left]
  | cons a as ih =>
    intro bs
    induction bs with
    | nil => rw [lcsLen_cons_nil]; exact Nat.zero_le _
    | cons b bs ihb =>
      rw [lcsLen_cons_cons]
      by_cases hab : a = b
      · rw [if_pos hab]
        have := ih bs
        simp only [List.length_cons]
        omega
      · rw [if_neg hab]
        refine Nat.max_le.mpr ⟨?_, ?_⟩
        · have := ih (b :: bs)
          simp only [List.length_cons]
          omega
        · exact ihb

theorem lcsLen_le_right : ∀ (as bs : List String), lcsLen as bs ≤ bs.length := by
  intro as
  induction as with
  | nil => intro bs; simp [lcsLen_nil_left]
  | cons a as ih =>
    intro bs
    induction bs with
    | nil => rw [lcsLen_cons_nil]; exact Nat.zero_le _
    | cons b bs ihb =>
      rw [lcsLen_cons_cons]
      by_cases hab : a = b
      · rw [if_pos hab]
        have := ih bs
        simp only [List.length_cons]
        omega
      · rw [if_neg hab]
        refine Nat.max_le.mpr ⟨?_, ?_⟩
        · exact ih (b :: bs)
        · have := ihb
          simp only [List.length_cons]
          omega

theorem lcsLen_self : ∀ (as : List String), lcsLen as as = as.length := by
  intro as
  induction as with
  | nil => rfl
  | cons a as ih =>
    rw [lcsLen_cons_cons, if_pos rfl, ih]
    rfl

theorem eq_of_lcsLen_lengths : ∀ (as bs : List String),
    lcsLen as bs = as.length → lcsLen as bs = bs.length → as = bs := by
  intro as
  induction as with
  | nil =>
    intro bs _ h2
    rw [lcsLen_nil_left] at h2
    cases bs with
    | nil => rfl
    | cons b bs => simp at h2
  | cons a as ih =>
    intro bs h1 h2
    cases bs with
    | nil =>
      rw [lcsLen_cons_nil] at h1
      simp at h1
    | cons b bs =>
      rw [lcsLen_cons_cons] at h1 h2
      by_cases hab : a = b
      · rw [if_pos hab] at h1 h2
        simp only [List.length_cons, Nat.add_right_cancel_iff] at h1 h2
        rw [hab, ih bs h1 h2]
      · rw [if_neg hab] at h1 h2
        have hu := lcsLen_le_left as (b :: bs)
        have hv := lcsLen_le_right (a :: as) bs
        simp only [List.length_cons] at h1 h2 hu hv
        rcases max_choice (lcsLen as (b :: bs)) (lcsLen (a :: as) bs) with h | h <;>
          rw [h] at h1 h2 <;> omega

theorem countEq_map_insert (bs : List String) :
    countEq (bs.map (fun x => (ChangeTag.Insert, x))) = 0 := by
  induction bs with
  | nil => rfl
  | cons b bs ih => simp [countEq, ih]

theorem countEq_diffChanges : ∀ (as bs : List String),
    countEq (diffChanges as bs) = lcsLen as bs := by
  intro as
  induction as with
  | nil =>
    intro bs
    rw [diffChanges_nil, countEq_map_insert, lcsLen_nil_left]
  | cons a as ih =>
    intro bs
    induction bs with
    | nil =>
      rw [diffChanges_cons_nil, lcsLen_cons_nil]
      simp [countEq, ih, lcsLen_nil_right]
    | cons b bs ihb =>
      rw [diffChanges_cons_cons, lcsLen_cons_cons]
      by_cases hab : a = b
      · rw [if_pos hab, if_pos hab]
        show (if ChangeTag.Equal = ChangeTag.Equal then 1 else 0) +
            countEq (diffChanges as bs) = lcsLen as bs + 1
        rw [if_pos rfl, ih bs]
        omega
      · rw [if_neg hab, if_neg hab]
        by_cases hle : lcsLen (a :: as) bs ≤ lcsLen as (b :: bs)
        · rw [if_pos hle]
          simp only [countEq, ih (b :: bs)]
          simp only [reduceCtorEq, if_false, Nat.zero_add]
          exact (Nat.max_eq_left hle).symm
        · rw [if_neg hle]
          simp only [countEq, ihb]
          simp only [reduceCtorEq, if_false, Nat.zero_add]
          exact (Nat.max_eq_right (le_of_not_le hle)).symm

theorem eq_of_all_equal : ∀ (as bs : List String),
    (∀ c ∈ diffChanges as bs, c.1 = ChangeTag.Equal) → as = bs := by
  intro as
  induction as with
  | nil =>
    intro bs h
    cases bs with
    | nil => rfl
    | cons b bs =>
      exfalso
      have hmem : (ChangeTag.Insert, b) ∈ diffChanges [] (b :: bs) := by
        rw [diffChanges_nil]
        exact List.mem_map_of_mem _ (List.mem_cons_self b bs)
      have := h _ hmem
      simp at this
  | cons a as ih =>
    intro bs h
    cases bs with
    | nil =>
      exfalso
      have hmem : (ChangeTag.Delete, a) ∈ diffChanges (a :: as) [] := by
        rw [diffChanges_cons_nil]
        exact List.mem_cons_self _ _
      have := h _ hmem
      simp at this
    | cons b bs =>
      rw [diffChanges_cons_cons] at h
      by_cases hab : a = b
      · rw [if_pos hab] at h
        have h2 : ∀ c ∈ diffChanges as bs, c.1 = ChangeTag.Equal :=
          fun c hc => h c (List.mem_cons_of_mem _ hc)
        rw [hab, ih bs h2]
      · rw [if_neg hab] at h
        exfalso
        by_cases hle : lcsLen (a :: as) bs ≤ lcsLen as (b :: bs)
        · rw [if_pos hle] at h
          have := h (ChangeTag.Delete, a) (List.mem_cons_self _ _)
          simp at this
        · rw [if_neg hle] at h
          have := h (ChangeTag.Insert, b) (List.mem_cons_self _ _)
          simp at this

theorem exists_change_of_ne (as bs : List String) (h : as ≠ bs) :
    ∃ c ∈ diffChanges as bs,
      c.1 = ChangeTag.Delete ∨ c.1 = ChangeTag.Insert := by
  by_contra hc
  push_neg at hc
  apply h
  apply eq_of_all_equal
  intro c hmem
  rcases hc c hmem with ⟨hd, hi⟩
  cases hcc : c.1 with
  | Delete => exact absurd hcc hd
  | Insert => exact absurd hcc hi
  | Equal => rfl

/-! ### Line splitting is lossless -/

theorem joinChars_splitLinesChars :
    ∀ (l : List Char), joinChars (splitLinesChars l) = l := by
  intro l
  induction l with
  | nil => rfl
  | cons c rest ih =>
    show joinChars
        (if c = '\n' then [c] :: splitLinesChars rest
         else
           match splitLinesChars rest with
           | [] => [[c]]
           | l :: ls => (c :: l) :: ls) = c :: rest
    by_cases hc : c = '\n'
    · rw [if_pos hc]
      show c :: joinChars (splitLinesChars rest) = c :: rest
      rw [ih]
    · rw [if_neg hc]
      cases hsp : splitLinesChars rest with
      | nil =>
        have hrest : rest = [] := by
          rw [← ih, hsp]
          rfl
        rw [hrest]
        rfl
      | cons l ls =>
        show (c :: l) ++ joinChars ls = c :: rest
        have hrest : l ++ joinChars ls = rest := by
          rw [← ih, hsp]
          rfl
        rw [List.cons_append, hrest]

theorem splitLines_inj (s t : String) (h : splitLines s = splitLines t) :
    s = t := by
  have hmk : Function.Injective String.mk := fun a b hab =>
    congrArg String.data hab
  have hd : splitLinesChars s.data = splitLinesChars t.data :=
    List.map_injective_iff.mpr hmk h
  have hdata : s.data = t.data := by
    rw [← joinChars_splitLinesChars s.data, ← joinChars_splitLinesChars t.data,
      hd]
  exact congrArg String.mk hdata

theorem splitLines_eq_nil (s : String) (h : splitLines s = []) : s = "" := by
  have h2 : splitLinesChars s.data = [] := List.map_eq_nil_iff.mp h
  have hdata : s.data = [] := by
    rw [← joinChars_splitLinesChars s.data, h2]
    rfl
  exact congrArg String.mk hdata

/-! ### Ratio facts -/

theorem matchCount_eq_lcsLen (as bs : List String) :
    matchCount as bs = lcsLen as bs := by
  unfold matchCount
  rw [countEq_diffChanges]

theorem ratio_eq_one_iff (as bs : List String) :
    ratio as bs = 1 ↔ as = bs := by
  unfold ratio
  by_cases h0 : as.length + bs.length = 0
  · rw [if_pos h0]
    have has : as = [] := List.eq_nil_of_length_eq_zero (by omega)
    have hbs : bs = [] := List.eq_nil_of_length_eq_zero (by omega)
    rw [has, hbs]
    simp
  · rw [if_neg h0]
    have ht : ((as.length + bs.length : Nat) : ℚ) ≠ 0 := by
      exact_mod_cast h0
    constructor
    · intro h
      rw [div_eq_one_iff_eq ht] at h
      have h2 : 2 * matchCount as bs = as.length + bs.length := by
        exact_mod_cast h
      rw [matchCount_eq_lcsLen] at h2
      have h3 := lcsLen_le_left as bs
      have h4 := lcsLen_le_right as bs
      apply eq_of_lcsLen_lengths <;> omega
    · intro h
      subst h
      rw [matchCount_eq_lcsLen, lcsLen_self]
      rw [div_eq_one_iff_eq ht]
      push_cast
      ring

theorem ratio_lt_one (as bs : List String) (h : as ≠ bs) :
    ratio as bs < 1 := by
  unfold ratio
  have h0 : as.length + bs.length ≠ 0 := by
    intro hc
    apply h
    have has : as = [] := List.eq_nil_of_length_eq_zero (by omega)
    have hbs : bs = [] := List.eq_nil_of_length_eq_zero (by omega)
    rw [has, hbs]
  rw [if_neg h0]
  have h3 := lcsLen_le_left as bs
  have h4 := lcsLen_le_right as bs
  have hne : 2 * matchCount as bs ≠ as.length + bs.length := by
    intro hc
    apply h
    rw [matchCount_eq_lcsLen] at hc
    apply eq_of_lcsLen_lengths <;> omega
  have hlt : 2 * matchCount as bs < as.length + bs.length := by
    rw [matchCount_eq_lcsLen] at hne ⊢
    omega
  rw [div_lt_one (by exact_mod_cast Nat.pos_of_ne_zero h0)]
  exact_mod_cast hlt

theorem ratio_ne_one (as bs : List String) (h : as ≠ bs) :
    ratio as bs ≠ 1 :=
  ne_of_lt (ratio_lt_one as bs h)

theorem ratio_nil_left (bs : List String) (h : bs ≠ []) :
    ratio [] bs = 0 := by
  unfold ratio
  have h0 : ([] : List String).length + bs.length ≠ 0 := by
    have := List.length_pos.mpr h
    simp only [List.length_nil]
    omega
  rw [if_neg h0, matchCount_eq_lcsLen, lcsLen_nil_left]
  simp

theorem ratio_nil_right (as : List String) (h : as ≠ []) :
    ratio as [] = 0 := by
  unfold ratio
  have h0 : as.length + ([] : List String).length ≠ 0 := by
    have := List.length_pos.mpr h
    simp only [List.length_nil]
    omega
  rw [if_neg h0, matchCount_eq_lcsLen, lcsLen_nil_right]
  simp

/-! ### Unfolding lemmas for `snap` -/

theorem snap_lookup_none_ci (fs : FS) (key subject : String)
    (h : lookup fs (snapPath key) = none) :
    snap true fs key subject = ⟨fs, Outcome.missingSnapshot key, []⟩ := by
  simp only [snap]
  rw [h]
  rfl

theorem snap_lookup_none_local (fs : FS) (key subject : String)
    (h : lookup fs (snapPath key) = none) :
    snap false fs key subject =
      ⟨write fs (snapPath key) subject, Outcome.written, []⟩ := by
  simp only [snap]
  rw [h]
  rfl

theorem snap_lookup_some_ratio_one (ci : Bool) (fs : FS)
    (key subject stored : String)
    (h : lookup fs (snapPath key) = some stored)
    (hr : ratio (splitLines stored) (splitLines subject) = 1) :
    snap ci fs key subject = ⟨fs, Outcome.pass, []⟩ := by
  simp only [snap]
  rw [h]
  simp only [hr, if_pos rfl]
  rfl

theorem snap_lookup_some_ratio_ne (ci : Bool) (fs : FS)
    (key subject stored : String)
    (h : lookup fs (snapPath key) = some stored)
    (hr : ratio (splitLines stored) (splitLines subject) ≠ 1) :
    snap ci fs key subject =
      ⟨fs, Outcome.mismatch (snapPath key),
        renderDiff key
          (diffChanges (splitLines stored) (splitLines subject))⟩ := by
  simp only [snap]
  rw [h]
  simp only [if_neg hr]

theorem lookup_write_self (fs : FS) (p c : String) :
    lookup (write fs p c) p = some c := by
  simp [write, lookup]

theorem lookup_write_other (fs : FS) (p c q : String) (h : p ≠ q) :
    lookup (write fs p c) q = lookup fs q := by
  simp [write, lookup, h]

/-! ### Binary32 rounding facts -/

theorem rndEven_intCast (k : ℤ) : rndEven (k : ℚ) = k := by
  unfold rndEven
  rw [Int.floor_intCast]
  norm_num

theorem rndEven_le_floor_add_one (x : ℚ) : rndEven x ≤ ⌊x⌋ + 1 := by
  unfold rndEven
  split_ifs <;> omega

theorem rndEven_le_of_le_intCast (x : ℚ) (k : ℤ) (h : x ≤ (k : ℚ)) :
    rndEven x ≤ k := by
  rcases eq_or_lt_of_le h with heq | hlt
  · rw [heq, rndEven_intCast]
  · have h1 : ⌊x⌋ < k := Int.floor_lt.mpr hlt
    have h2 := rndEven_le_floor_add_one x
    omega

theorem log2_eq_of_bounds (q : ℚ) (e : ℤ) (h1 : (2:ℚ)^e ≤ q)
    (h2 : q < (2:ℚ)^(e+1)) : Int.log 2 q = e := by
  have hq : 0 < q := lt_of_lt_of_le (by positivity) h1
  have h3 : e ≤ Int.log 2 q := by
    rw [← Int.zpow_le_iff_le_log (by norm_num) hq]
    push_cast
    exact h1
  have h4 : Int.log 2 q < e + 1 := by
    rw [← Int.lt_zpow_iff_log_lt (by norm_num) hq]
    push_cast
    exact h2
  omega

theorem fl_of_pos (q : ℚ) (hq : 0 < q) :
    fl q = (rndEven (q * 2 ^ (23 - Int.log 2 q)) : ℚ) *
      2 ^ (Int.log 2 q - 23) := by
  unfold fl
  rw [if_neg (not_le.mpr hq)]

theorem fl_eq_self_of_scaled_int (q : ℚ) (e : ℤ) (k : ℤ)
    (h1 : (2:ℚ)^e ≤ q) (h2 : q < (2:ℚ)^(e+1))
    (hk : q * (2:ℚ)^(23 - e) = (k:ℚ)) : fl q = q := by
  have hq : 0 < q := lt_of_lt_of_le (by positivity) h1
  rw [fl_of_pos q hq, log2_eq_of_bounds q e h1 h2, hk, rndEven_intCast, ← hk,
    mul_assoc, ← zpow_add₀ (two_ne_zero : (2:ℚ) ≠ 0)]
  have he : 23 - e + (e - 23) = 0 := by ring
  rw [he, zpow_zero, mul_one]

theorem fl_natCast_of_le (n : ℕ) (h : n ≤ 2^24) : fl (n : ℚ) = (n : ℚ) := by
  rcases Nat.eq_zero_or_pos n with hn0 | hnpos
  · subst hn0
    unfold fl
    norm_num
  rcases eq_or_lt_of_le h with h24 | hlt24
  · subst h24
    apply fl_eq_self_of_scaled_int _ 24 (2^23)
    · push_cast
      norm_num
    · push_cast
      norm_num
    · push_cast
      norm_num
  · have hq : (0:ℚ) < n := by exact_mod_cast hnpos
    set e := Int.log 2 (n:ℚ) with hedef
    have hl : (2:ℚ)^e ≤ n := by
      have := Int.zpow_log_le_self (b := 2) (by norm_num) hq
      push_cast at this
      exact this
    have hu : (n:ℚ) < (2:ℚ)^(e+1) := by
      have := Int.lt_zpow_succ_log_self (b := 2) (by norm_num) (n:ℚ)
      push_cast at this
      exact this
    have he23 : e ≤ 23 := by
      by_contra hc
      push_neg at hc
      have h1 : (2:ℚ)^(24:ℤ) ≤ (2:ℚ)^e :=
        zpow_le_zpow_right₀ (by norm_num) (by omega)
      have h2 : (2:ℚ)^(24:ℤ) ≤ (n:ℚ) := le_trans h1 hl
      have h3 : ((2^24 : ℕ) : ℚ) ≤ (n:ℚ) := by
        push_cast
        push_cast at h2
        linarith
      have h4 : (2^24 : ℕ) ≤ n := by exact_mod_cast h3
      omega
    set d : ℕ := (23 - e).toNat with hddef
    have hd : (d : ℤ) = 23 - e := Int.toNat_of_nonneg (by omega)
    apply fl_eq_self_of_scaled_int _ e ((n : ℤ) * 2^d) hl hu
    rw [← hd, zpow_natCast]
    push_cast
    ring

theorem fl_lt_one_of_le (x : ℚ) (hx : 0 < x)
    (h : x ≤ ((2:ℚ)^24 - 1)/2^24) : fl x < 1 := by
  have hx1 : x < 1 := lt_of_le_of_lt h (by norm_num)
  set e := Int.log 2 x with hedef
  have hl : (2:ℚ)^e ≤ x := by
    have := Int.zpow_log_le_self (b := 2) (by norm_num) hx
    push_cast at this
    exact this
  have hu : x < (2:ℚ)^(e+1) := by
    have := Int.lt_zpow_succ_log_self (b := 2) (by norm_num) x
    push_cast at this
    exact this
  have he : e ≤ -1 := by
    by_contra hc
    push_neg at hc
    have h2 : (2:ℚ)^(0:ℤ) ≤ (2:ℚ)^e :=
      zpow_le_zpow_right₀ (by norm_num) (by omega)
    have h3 : (1:ℚ) ≤ x := by
      have := le_trans h2 hl
      norm_num at this
      exact this
    linarith
  rw [fl_of_pos x hx, ← hedef]
  rcases eq_or_lt_of_le he with heq | hlt
  · rw [heq]
    have hy : x * (2:ℚ)^(23 - (-1) : ℤ) ≤ ((2^24 - 1 : ℤ) : ℚ) := by
      have h1 : x * (2:ℚ)^(24:ℤ) ≤ (((2:ℚ)^24 - 1)/2^24) * (2:ℚ)^(24:ℤ) :=
        mul_le_mul_of_nonneg_right h (by positivity)
      have h2 : (((2:ℚ)^24 - 1)/2^24) * (2:ℚ)^(24:ℤ) = (2:ℚ)^24 - 1 := by
        norm_num
      have h3 : (23 - (-1) : ℤ) = 24 := by norm_num
      rw [h3]
      push_cast
      linarith
    have hr := rndEven_le_of_le_intCast _ _ hy
    have hc : (rndEven (x * (2:ℚ)^(23 - (-1) : ℤ)) : ℚ) ≤
        ((2^24 - 1 : ℤ) : ℚ) := by exact_mod_cast hr
    calc (rndEven (x * (2:ℚ)^(23 - (-1) : ℤ)) : ℚ) * 2 ^ ((-1) - 23 : ℤ)
        ≤ ((2^24 - 1 : ℤ) : ℚ) * 2 ^ ((-1) - 23 : ℤ) :=
          mul_le_mul_of_nonneg_right hc (by positivity)
      _ < 1 := by norm_num
  · have hyb : x * (2:ℚ)^(23 - e) < (2:ℚ)^(24:ℤ) := by
      calc x * (2:ℚ)^(23 - e) < (2:ℚ)^(e+1) * (2:ℚ)^(23 - e) :=
            mul_lt_mul_of_pos_right hu (by positivity)
        _ = (2:ℚ)^(24:ℤ) := by
            rw [← zpow_add₀ (two_ne_zero : (2:ℚ) ≠ 0)]
            congr 1
            omega
    have hcast : ((2^24 : ℤ) : ℚ) = (2:ℚ)^(24:ℤ) := by
      push_cast
      norm_num
    have hfl : ⌊x * (2:ℚ)^(23 - e)⌋ < 2^24 := by
      rw [Int.floor_lt, hcast]
      exact hyb
    have hr : rndEven (x * (2:ℚ)^(23 - e)) ≤ 2^24 :=
      le_trans (rndEven_le_floor_add_one _) (by omega)
    have hc : (rndEven (x * (2:ℚ)^(23 - e)) : ℚ) ≤ ((2^24 : ℤ) : ℚ) := by
      exact_mod_cast hr
    calc (rndEven (x * (2:ℚ)^(23 - e)) : ℚ) * 2 ^ (e - 23)
        ≤ ((2^24 : ℤ) : ℚ) * 2 ^ (e - 23) :=
          mul_le_mul_of_nonneg_right hc (by positivity)
      _ = (2:ℚ)^(e + 1) := by
          rw [hcast, ← zpow_add₀ (two_ne_zero : (2:ℚ) ≠ 0)]
          congr 1
          omega
      _ ≤ (2:ℚ)^(-1 : ℤ) := zpow_le_zpow_right₀ (by norm_num) (by omega)
      _ < 1 := by norm_num

theorem ratioF32_lt_one_of_small (m t : ℕ) (ht : 0 < t) (hts : t ≤ 2^24)
    (hlt : 2 * m < t) : ratioF32 m t < 1 := by
  unfold ratioF32
  rw [if_neg (by omega : ¬ t = 0)]
  rw [fl_natCast_of_le m (by omega), fl_natCast_of_le t hts]
  have h2m : (2:ℚ) * (m:ℚ) = ((2*m : ℕ) : ℚ) := by push_cast; ring
  rw [h2m, fl_natCast_of_le (2*m) (by omega)]
  rcases Nat.eq_zero_or_pos m with hm0 | hmpos
  · subst hm0
    norm_num
    unfold fl
    norm_num
  · apply fl_lt_one_of_le
    · apply div_pos
      · exact_mod_cast (by omega : 0 < 2*m)
      · exact_mod_cast ht
    · rw [div_le_div_iff₀ (by exact_mod_cast ht) (by norm_num)]
      have h1 : ((2*m : ℕ) : ℚ) + 1 ≤ (t:ℚ) := by exact_mod_cast hlt
      have h2 : (t:ℚ) ≤ 2^24 := by exact_mod_cast hts
      nlinarith

theorem fl_pow26sub1 : fl ((2:ℚ)^26 - 1) = (2:ℚ)^26 := by
  have hlog : Int.log 2 ((2:ℚ)^26 - 1) = 25 :=
    log2_eq_of_bounds _ 25 (by norm_num) (by norm_num)
  rw [fl_of_pos _ (by norm_num), hlog]
  have hfloor : ⌊((2:ℚ)^26 - 1) * (2:ℚ)^(23 - 25 : ℤ)⌋ = 16777215 := by
    rw [Int.floor_eq_iff]
    constructor <;> norm_num
  unfold rndEven
  rw [hfloor]
  norm_num

theorem fl_one : fl 1 = 1 :=
  fl_eq_self_of_scaled_int 1 0 (2^23) (by norm_num) (by norm_num) (by norm_num)

theorem fl_pow26 : fl ((2:ℚ)^26) = (2:ℚ)^26 :=
  fl_eq_self_of_scaled_int _ 26 (2^23) (by norm_num) (by norm_num) (by norm_num)

theorem fl_pow27 : fl ((2:ℚ)^27) = (2:ℚ)^27 :=
  fl_eq_self_of_scaled_int _ 27 (2^23) (by norm_num) (by norm_num) (by norm_num)

theorem fl_pow27add1 : fl ((2:ℚ)^27 + 1) = (2:ℚ)^27 := by
  have hlog : Int.log 2 ((2:ℚ)^27 + 1) = 27 :=
    log2_eq_of_bounds _ 27 (by norm_num) (by norm_num)
  rw [fl_of_pos _ (by norm_num), hlog]
  have hfloor : ⌊((2:ℚ)^27 + 1) * (2:ℚ)^(23 - 27 : ℤ)⌋ = 8388608 := by
    rw [Int.floor_eq_iff]
    constructor <;> norm_num
  unfold rndEven
  rw [hfloor]
  norm_num

theorem ratioF32_big5 : ratioF32 67108863 134217728 = 1 := by
  unfold ratioF32
  rw [if_neg (by norm_num)]
  have hm : ((67108863 : ℕ) : ℚ) = (2:ℚ)^26 - 1 := by norm_num
  have ht : ((134217728 : ℕ) : ℚ) = (2:ℚ)^27 := by norm_num
  rw [hm, ht, fl_pow26sub1, fl_pow27]
  have h2 : (2:ℚ) * (2:ℚ)^26 = (2:ℚ)^27 := by ring
  rw [h2, fl_pow27, div_self (by positivity), fl_one]

theorem ratioF32_big7 : ratioF32 67108864 134217729 = 1 := by
  unfold ratioF32
  rw [if_neg (by norm_num)]
  have hm : ((67108864 : ℕ) : ℚ) = (2:ℚ)^26 := by norm_num
  have ht : ((134217729 : ℕ) : ℚ) = (2:ℚ)^27 + 1 := by norm_num
  rw [hm, ht, fl_pow26, fl_pow27add1]
  have h2 : (2:ℚ) * (2:ℚ)^26 = (2:ℚ)^27 := by ring
  rw [h2, fl_pow27, div_self (by positivity), fl_one]

/-! ### The f32 guard of `snapF32` -/

theorem two_matchCount_lt_of_ne (as bs : List String) (h : as ≠ bs) :
    2 * matchCount as bs < as.length + bs.length := by
  rw [matchCount_eq_lcsLen]
  have h1 := lcsLen_le_left as bs
  have h2 := lcsLen_le_right as bs
  have hne : lcsLen as bs = as.length → lcsLen as bs = bs.length → False :=
    fun ha hb => h (eq_of_lcsLen_lengths as bs ha hb)
  by_contra hc
  push_neg at hc
  exact hne (by omega) (by omega)

theorem length_sum_pos_of_ne (as bs : List String) (h : as ≠ bs) :
    0 < as.length + bs.length := by
  by_contra hc
  push_neg at hc
  apply h
  have has : as = [] := List.eq_nil_of_length_eq_zero (by omega)
  have hbs : bs = [] := List.eq_nil_of_length_eq_zero (by omega)
  rw [has, hbs]

theorem snapF32_lookup_some_ratio_one (ci : Bool) (fs : FS)
    (key subject stored : String)
    (h : lookup fs (snapPath key) = some stored)
    (hr : ratioF32 (matchCount (splitLines stored) (splitLines subject))
      ((splitLines stored).length + (splitLines subject).length) = 1) :
    snapF32 ci fs key subject = ⟨fs, Outcome.pass, []⟩ := by
  simp only [snapF32]
  rw [h]
  simp only [hr, if_pos rfl]
  rfl

theorem snapF32_lookup_some_ratio_ne (ci : Bool) (fs : FS)
    (key subject stored : String)
    (h : lookup fs (snapPath key) = some stored)
    (hr : ratioF32 (matchCount (splitLines stored) (splitLines subject))
      ((splitLines stored).length + (splitLines subject).length) ≠ 1) :
    snapF32 ci fs key subject =
      ⟨fs, Outcome.mismatch (snapPath key),
        renderDiff key
          (diffChanges (splitLines stored) (splitLines subject))⟩ := by
  simp only [snapF32]
  rw [h]
  simp only [if_neg hr]

/-! ### The long references of the rounding counterexamples -/

theorem joinChars_append (xs ys : List (List Char)) :
    joinChars (xs ++ ys) = joinChars xs ++ joinChars ys := by
  induction xs with
  | nil => rfl
  | cons l ls ih => simp [joinChars, ih]

theorem splitLinesChars_newline_cons (rest : List Char) :
    splitLinesChars ('\n' :: rest) = ['\n'] :: splitLinesChars rest := by
  show (if '\n' = '\n' then ['\n'] :: splitLinesChars rest
        else
          match splitLinesChars rest with
          | [] => [['\n']]
          | l :: ls => ('\n' :: l) :: ls) =
      ['\n'] :: splitLinesChars rest
  rw [if_pos rfl]

theorem splitLinesChars_cons_line (c : Char) (hc : ¬ c = '\n')
    (rest : List Char) :
    splitLinesChars (c :: '\n' :: rest) = [c, '\n'] :: splitLinesChars rest := by
  show (if c = '\n' then [c] :: splitLinesChars ('\n' :: rest)
        else
          match splitLinesChars ('\n' :: rest) with
          | [] => [[c]]
          | l :: ls => (c :: l) :: ls) =
      [c, '\n'] :: splitLinesChars rest
  rw [if_neg hc, splitLinesChars_newline_cons]

theorem splitLinesChars_joinChars_tokens : ∀ (ls : List (List Char)),
    (∀ l ∈ ls, l = ['a', '\n'] ∨ l = ['b', '\n'] ∨ l = ['\n']) →
    splitLinesChars (joinChars ls) = ls := by
  intro ls
  induction ls with
  | nil => intro _; rfl
  | cons l ls ih =>
    intro h
    have hrest : ∀ x ∈ ls, x = ['a', '\n'] ∨ x = ['b', '\n'] ∨ x = ['\n'] :=
      fun x hx => h x (List.mem_cons_of_mem _ hx)
    rcases h l (List.mem_cons_self _ _) with h1 | h1 | h1 <;> subst h1
    · show splitLinesChars ('a' :: '\n' :: joinChars ls) = _
      rw [splitLinesChars_cons_line 'a' (by decide), ih hrest]
    · show splitLinesChars ('b' :: '\n' :: joinChars ls) = _
      rw [splitLinesChars_cons_line 'b' (by decide), ih hrest]
    · show splitLinesChars ('\n' :: joinChars ls) = _
      rw [splitLinesChars_newline_cons, ih hrest]

theorem lcsLen_append_left (xs as bs : List String) :
    lcsLen (xs ++ as) (xs ++ bs) = xs.length + lcsLen as bs := by
  induction xs with
  | nil => simp
  | cons x xs ih =>
    rw [List.cons_append, List.cons_append, lcsLen_cons_cons, if_pos rfl, ih]
    simp only [List.length_cons]
    omega

theorem lcsLen_self_append (xs ys : List String) :
    lcsLen xs (xs ++ ys) = xs.length + lcsLen [] ys := by
  have h := lcsLen_append_left xs [] ys
  rw [List.append_nil] at h
  exact h

theorem splitLines_bigStored :
    splitLines bigStored = List.replicate 67108863 "a\n" ++ ["a\n"] := by
  unfold splitLines bigStored
  rw [show (String.mk (joinChars (bigLines ++ [['a', '\n']]))).data =
      joinChars (bigLines ++ [['a', '\n']]) from rfl]
  rw [splitLinesChars_joinChars_tokens _ (by
    intro l hl
    rcases List.mem_append.mp hl with h1 | h1
    · exact Or.inl (List.eq_of_mem_replicate h1)
    · simp at h1
      subst h1
      exact Or.inl rfl)]
  unfold bigLines
  rw [List.map_append, List.map_replicate]
  rfl

theorem splitLines_bigSubject :
    splitLines bigSubject = List.replicate 67108863 "a\n" ++ ["b\n"] := by
  unfold splitLines bigSubject
  rw [show (String.mk (joinChars (bigLines ++ [['b', '\n']]))).data =
      joinChars (bigLines ++ [['b', '\n']]) from rfl]
  rw [splitLinesChars_joinChars_tokens _ (by
    intro l hl
    rcases List.mem_append.mp hl with h1 | h1
    · exact Or.inl (List.eq_of_mem_replicate h1)
    · simp at h1
      subst h1
      exact Or.inr (Or.inl rfl))]
  unfold bigLines
  rw [List.map_append, List.map_replicate]
  rfl

theorem splitLines_bigStored_newline :
    splitLines (bigStored ++ "\n") =
      (List.replicate 67108863 "a\n" ++ ["a\n"]) ++ ["\n"] := by
  unfold splitLines
  have hdata : (bigStored ++ "\n").data =
      joinChars ((bigLines ++ [['a', '\n']]) ++ [['\n']]) := by
    rw [joinChars_append]
    rfl
  rw [hdata]
  rw [splitLinesChars_joinChars_tokens _ (by
    intro l hl
    rcases List.mem_append.mp hl with h1 | h1
    · rcases List.mem_append.mp h1 with h2 | h2
      · exact Or.inl (List.eq_of_mem_replicate h2)
      · simp at h2
        subst h2
        exact Or.inl rfl
    · simp at h1
      subst h1
      exact Or.inr (Or.inr rfl))]
  unfold bigLines
  rw [List.map_append, List.map_append, List.map_replicate]
  rfl

/-- A string is never equal to itself with a newline appended. -/
theorem string_ne_self_append_newline (s : String) : s ≠ s ++ "\n" := by
  intro hc
  have hd : s.data = s.data ++ ['\n'] := congrArg String.data hc
  have := congrArg List.length hd
  simp at this

/-! ### Claims -/

/-- C1: for every key whose reference file already exists, `snap` never
writes to or otherwise mutates the filesystem, whatever the candidate
and whatever the run mode; only the first-write path (reference absent)
writes a snapshot file. -/
theorem snap_never_mutates_existing (ci : Bool) (fs : FS)
    (key subject stored : String)
    (h : lookup fs (snapPath key) = some stored) :
    (snap ci fs key subject).fs = fs := by
  by_cases hr : ratio (splitLines stored) (splitLines subject) = 1
  · rw [snap_lookup_some_ratio_one ci fs key subject stored h hr]
  · rw [snap_lookup_some_ratio_ne ci fs key subject stored h hr]

/-- Witness for C1: a failing comparison in CI mode leaves the
filesystem exactly as it was. -/
theorem snap_never_mutates_existing_witness :
    (snap true [("snapshots/k.snap", "a\n")] "k" "b\n").fs =
      [("snapshots/k.snap", "a\n")] :=
  snap_never_mutates_existing true [("snapshots/k.snap", "a\n")] "k" "b\n"
    "a\n" rfl

/-- C2: with no existing reference and non-CI mode, `snap` writes exactly
the candidate text to the resolved path `snapshots/<key>.snap`, leaves
every other path untouched, and the test passes. -/
theorem snap_first_write_exact (fs : FS) (key subject : String)
    (h : lookup fs (snapPath key) = none) :
    (snap false fs key subject).fs = write fs (snapPath key) subject ∧
    lookup (snap false fs key subject).fs (snapPath key) = some subject ∧
    (∀ q, q ≠ snapPath key →
      lookup (snap false fs key subject).fs q = lookup fs q) ∧
    (snap false fs key subject).outcome = Outcome.written ∧
    (snap false fs key subject).outcome.isFail = false ∧
    snapPath key = "snapshots" ++ "/" ++ key ++ ".snap" := by
  rw [snap_lookup_none_local fs key subject h]
  refine ⟨rfl, lookup_write_self fs _ subject, ?_, rfl, rfl, rfl⟩
  intro q hq
  exact lookup_write_other fs _ subject q (fun hc => hq hc.symm)

/-- Witness for C2: first run on an empty filesystem stores the
candidate byte-for-byte under the resolved path. -/
theorem snap_first_write_exact_witness :
    (snap false [] "greet" "hello\n").fs =
      write [] (snapPath "greet") "hello\n" ∧
    lookup (snap false [] "greet" "hello\n").fs (snapPath "greet") =
      some "hello\n" :=
  ⟨(snap_first_write_exact [] "greet" "hello\n" rfl).1,
   (snap_first_write_exact [] "greet" "hello\n" rfl).2.1⟩

/-- C3: with no existing reference and CI mode, `snap` fails with a
missing-snapshot error naming the key and creates no file. -/
theorem snap_ci_missing_fails (fs : FS) (key subject : String)
    (h : lookup fs (snapPath key) = none) :
    (snap true fs key subject).outcome = Outcome.missingSnapshot key ∧
    (snap true fs key subject).outcome.message =
      some ("snapshot missing for " ++ key) ∧
    (snap true fs key subject).outcome.isFail = true ∧
    (snap true fs key subject).fs = fs := by
  rw [snap_lookup_none_ci fs key subject h]
  exact ⟨rfl, rfl, rfl, rfl⟩

/-- Witness for C3: CI mode with an absent reference fails and writes
nothing. -/
theorem snap_ci_missing_fails_witness :
    (snap true [] "greet" "hello\n").outcome =
      Outcome.missingSnapshot "greet" ∧
    (snap true [] "greet" "hello\n").fs = [] :=
  ⟨(snap_ci_missing_fails [] "greet" "hello\n" rfl).1,
   (snap_ci_missing_fails [] "greet" "hello\n" rfl).2.2.2⟩

/-- C4: when the stored reference equals the candidate line for line,
`snap` passes, prints nothing, leaves the filesystem unchanged, and a
repeated call with the same text passes again. -/
theorem snap_equal_passes (ci : Bool) (fs : FS)
    (key subject stored : String)
    (h : lookup fs (snapPath key) = some stored)
    (heq : splitLines stored = splitLines subject) :
    (snap ci fs key subject).outcome = Outcome.pass ∧
    (snap ci fs key subject).output = [] ∧
    (snap ci fs key subject).fs = fs ∧
    (snap ci (snap ci fs key subject).fs key subject).outcome =
      Outcome.pass := by
  have hr : ratio (splitLines stored) (splitLines subject) = 1 := by
    rw [heq]
    exact (ratio_eq_one_iff _ _).mpr rfl
  have hs := snap_lookup_some_ratio_one ci fs key subject stored h hr
  refine ⟨by rw [hs], by rw [hs], by rw [hs], ?_⟩
  rw [hs]
  show (snap ci fs key subject).outcome = Outcome.pass
  rw [hs]

/-- Witness for C4: a matching reference passes, twice. -/
theorem snap_equal_passes_witness :
    (snap false [("snapshots/greet.snap", "hello\n")] "greet"
      "hello\n").outcome = Outcome.pass :=
  (snap_equal_passes false [("snapshots/greet.snap", "hello\n")] "greet"
    "hello\n" "hello\n" rfl rfl).1

/-- C5 counterexample: two references of `2^26` lines each, differing in
exactly one line.  The f32 value the code compares with `1.0` is exactly
`1` — `matches = 2^26 - 1` rounds up to `2^26` in binary32 — so the
engine passes and renders nothing, though the pair differs in a line. -/
theorem snapF32_large_line_difference_passes :
    splitLines bigStored ≠ splitLines bigSubject ∧
    ratioF32 (matchCount (splitLines bigStored) (splitLines bigSubject))
      ((splitLines bigStored).length + (splitLines bigSubject).length) = 1 ∧
    (snapF32 false [(snapPath "big", bigStored)] "big" bigSubject).outcome =
      Outcome.pass ∧
    (snapF32 false [(snapPath "big", bigStored)] "big" bigSubject).output =
      [] := by
  have hne : splitLines bigStored ≠ splitLines bigSubject := by
    rw [splitLines_bigStored, splitLines_bigSubject]
    intro hcontra
    have h2 := List.append_cancel_left hcontra
    simp at h2
  have hm : matchCount (splitLines bigStored) (splitLines bigSubject) =
      67108863 := by
    rw [splitLines_bigStored, splitLines_bigSubject, matchCount_eq_lcsLen,
      lcsLen_append_left]
    have h0 : lcsLen ["a\n"] ["b\n"] = 0 := by decide
    rw [h0, List.length_replicate]
  have hl1 : (splitLines bigStored).length = 67108864 := by
    rw [splitLines_bigStored, List.length_append, List.length_replicate]
    rfl
  have hl2 : (splitLines bigSubject).length = 67108864 := by
    rw [splitLines_bigSubject, List.length_append, List.length_replicate]
    rfl
  have hr : ratioF32 (matchCount (splitLines bigStored) (splitLines bigSubject))
      ((splitLines bigStored).length + (splitLines bigSubject).length) = 1 := by
    rw [hm, hl1, hl2, show (67108864 + 67108864 : ℕ) = 134217728 from rfl]
    exact ratioF32_big5
  have hlook : lookup [(snapPath "big", bigStored)] (snapPath "big") =
      some bigStored := by
    simp [lookup]
  have hs := snapF32_lookup_some_ratio_one false _ "big" bigSubject bigStored
    hlook hr
  exact ⟨hne, hr, by rw [hs], by rw [hs]⟩

/-- C5 as amended: for every (reference, candidate) pair that differs in
at least one line, the comparator's exact similarity ratio is strictly
less than 1; whenever the two sides additionally total at most `2^24`
line tokens — so that the f32 rounding of the compared ratio cannot hide
the difference — the rounded ratio is also below 1, the test fails with
a mismatch, and the rendered diff holds at least one Delete-marked or
Insert-marked record.  On larger inputs the f32 ratio can round to
exactly 1 and the difference is missed. -/
theorem snapF32_mismatch_detected (ci : Bool) (fs : FS)
    (key subject stored : String)
    (h : lookup fs (snapPath key) = some stored)
    (hne : splitLines stored ≠ splitLines subject)
    (hsmall : (splitLines stored).length + (splitLines subject).length ≤
      2^24) :
    ratio (splitLines stored) (splitLines subject) < 1 ∧
    ratioF32 (matchCount (splitLines stored) (splitLines subject))
      ((splitLines stored).length + (splitLines subject).length) < 1 ∧
    (snapF32 ci fs key subject).outcome = Outcome.mismatch (snapPath key) ∧
    (snapF32 ci fs key subject).outcome.isFail = true ∧
    (∃ c ∈ diffChanges (splitLines stored) (splitLines subject),
      (c.1 = ChangeTag.Delete ∨ c.1 = ChangeTag.Insert) ∧
      sign c.1 ++ c.2 ∈ (snapF32 ci fs key subject).output) := by
  have hr32 := ratioF32_lt_one_of_small _ _
    (length_sum_pos_of_ne _ _ hne) hsmall (two_matchCount_lt_of_ne _ _ hne)
  have hs := snapF32_lookup_some_ratio_ne ci fs key subject stored h
    (ne_of_lt hr32)
  refine ⟨ratio_lt_one _ _ hne, hr32, by rw [hs], by rw [hs]; rfl, ?_⟩
  rcases exists_change_of_ne _ _ hne with ⟨c, hmem, hc⟩
  refine ⟨c, hmem, hc, ?_⟩
  rw [hs]
  exact List.mem_cons_of_mem _
    (List.mem_append_left _ (List.mem_map_of_mem _ hmem))

/-- Witness for the amended C5: a one-line difference of small total
size is detected and rendered by the f32-guarded engine. -/
theorem snapF32_mismatch_detected_witness :
    (snapF32 false [("snapshots/greet.snap", "hello\n")] "greet"
      "hello world\n").outcome = Outcome.mismatch (snapPath "greet") :=
  (snapF32_mismatch_detected false [("snapshots/greet.snap", "hello\n")]
    "greet" "hello world\n" "hello\n" rfl (by decide) (by decide)).2.2.1

/-- C6: an empty reference against a non-empty candidate, or the other
way round, is a full mismatch with ratio zero — the call fails with a
snapshot mismatch, not with any error outcome. -/
theorem snap_empty_vs_nonempty (ci : Bool) (fs : FS)
    (key subject stored : String)
    (h : lookup fs (snapPath key) = some stored)
    (hcase : (stored = "" ∧ subject ≠ "") ∨ (stored ≠ "" ∧ subject = "")) :
    ratio (splitLines stored) (splitLines subject) = 0 ∧
    (snap ci fs key subject).outcome = Outcome.mismatch (snapPath key) ∧
    (snap ci fs key subject).outcome.isFail = true := by
  have hr0 : ratio (splitLines stored) (splitLines subject) = 0 := by
    rcases hcase with ⟨hst, hsub⟩ | ⟨hst, hsub⟩
    · subst hst
      have hnn : splitLines subject ≠ [] := fun hc =>
        hsub (splitLines_eq_nil _ hc)
      exact ratio_nil_left _ hnn
    · subst hsub
      have hnn : splitLines stored ≠ [] := fun hc =>
        hst (splitLines_eq_nil _ hc)
      exact ratio_nil_right _ hnn
  have hrne : ratio (splitLines stored) (splitLines subject) ≠ 1 := by
    rw [hr0]
    norm_num
  have hs := snap_lookup_some_ratio_ne ci fs key subject stored h hrne
  exact ⟨hr0, by rw [hs], by rw [hs]; rfl⟩

/-- Witness for C6: empty reference versus non-empty candidate fails
with ratio zero. -/
theorem snap_empty_vs_nonempty_witness :
    ratio (splitLines "") (splitLines "x\n") = 0 ∧
    (snap false [("snapshots/k.snap", "")] "k" "x\n").outcome =
      Outcome.mismatch (snapPath "k") :=
  ⟨(snap_empty_vs_nonempty false [("snapshots/k.snap", "")] "k" "x\n" ""
      rfl (Or.inl ⟨rfl, by decide⟩)).1,
   (snap_empty_vs_nonempty false [("snapshots/k.snap", "")] "k" "x\n" ""
      rfl (Or.inl ⟨rfl, by decide⟩)).2.1⟩

/-- C7 counterexample: a reference of `2^26` lines against the same text
with one trailing newline appended.  The f32 value the code compares
with `1.0` is exactly `1` — the token total `2^27 + 1` rounds down to
`2^27` in binary32 — so the engine passes, though the texts differ in a
trailing newline. -/
theorem snapF32_large_trailing_newline_passes :
    bigStored ≠ bigStored ++ "\n" ∧
    splitLines bigStored ≠ splitLines (bigStored ++ "\n") ∧
    ratioF32
      (matchCount (splitLines bigStored) (splitLines (bigStored ++ "\n")))
      ((splitLines bigStored).length +
        (splitLines (bigStored ++ "\n")).length) = 1 ∧
    (snapF32 false [(snapPath "big", bigStored)] "big"
      (bigStored ++ "\n")).outcome = Outcome.pass ∧
    (snapF32 false [(snapPath "big", bigStored)] "big"
      (bigStored ++ "\n")).output = [] := by
  have hne0 : bigStored ≠ bigStored ++ "\n" :=
    string_ne_self_append_newline bigStored
  have hne : splitLines bigStored ≠ splitLines (bigStored ++ "\n") :=
    fun hc => hne0 (splitLines_inj _ _ hc)
  have hm : matchCount (splitLines bigStored)
      (splitLines (bigStored ++ "\n")) = 67108864 := by
    rw [splitLines_bigStored, splitLines_bigStored_newline,
      matchCount_eq_lcsLen, lcsLen_self_append, lcsLen_nil_left,
      List.length_append, List.length_replicate]
    rfl
  have hl1 : (splitLines bigStored).length = 67108864 := by
    rw [splitLines_bigStored, List.length_append, List.length_replicate]
    rfl
  have hl2 : (splitLines (bigStored ++ "\n")).length = 67108865 := by
    rw [splitLines_bigStored_newline, List.length_append, List.length_append,
      List.length_replicate]
    rfl
  have hr : ratioF32
      (matchCount (splitLines bigStored) (splitLines (bigStored ++ "\n")))
      ((splitLines bigStored).length +
        (splitLines (bigStored ++ "\n")).length) = 1 := by
    rw [hm, hl1, hl2, show (67108864 + 67108865 : ℕ) = 134217729 from rfl]
    exact ratioF32_big7
  have hlook : lookup [(snapPath "big", bigStored)] (snapPath "big") =
      some bigStored := by
    simp [lookup]
  have hs := snapF32_lookup_some_ratio_one false _ "big" (bigStored ++ "\n")
    bigStored hlook hr
  exact ⟨hne0, hne, hr, by rw [hs], by rw [hs]⟩

/-- C7 as amended: texts differing only in a trailing newline mismatch
whenever the two sides total at most `2^24` line tokens — the comparison
is exact, not whitespace-normalised; on larger inputs the f32 rounding
of the compared ratio can reach exactly 1 and the difference is
missed. -/
theorem snapF32_trailing_newline_mismatch (ci : Bool) (fs : FS)
    (key subject stored : String)
    (h : lookup fs (snapPath key) = some stored)
    (hnl : subject = stored ++ "\n" ∨ stored = subject ++ "\n")
    (hsmall : (splitLines stored).length + (splitLines subject).length ≤
      2^24) :
    (snapF32 ci fs key subject).outcome = Outcome.mismatch (snapPath key) ∧
    (snapF32 ci fs key subject).outcome.isFail = true := by
  have hne : stored ≠ subject := by
    rcases hnl with h1 | h1
    · rw [h1]
      exact string_ne_self_append_newline stored
    · rw [h1]
      exact fun hc => string_ne_self_append_newline subject hc.symm
  have hlne : splitLines stored ≠ splitLines subject := fun hc =>
    hne (splitLines_inj _ _ hc)
  have hr32 := ratioF32_lt_one_of_small _ _
    (length_sum_pos_of_ne _ _ hlne) hsmall (two_matchCount_lt_of_ne _ _ hlne)
  have hs := snapF32_lookup_some_ratio_ne ci fs key subject stored h
    (ne_of_lt hr32)
  exact ⟨by rw [hs], by rw [hs]; rfl⟩

/-- Witness for the amended C7: "hello" versus "hello\n" mismatches in
the f32-guarded engine. -/
theorem snapF32_trailing_newline_mismatch_witness :
    (snapF32 false [("snapshots/k.snap", "hello")] "k" "hello\n").outcome =
      Outcome.mismatch (snapPath "k") :=
  (snapF32_trailing_newline_mismatch false [("snapshots/k.snap", "hello")]
    "k" "hello\n" "hello" rfl (Or.inl rfl) (by decide)).1

/-- C8 counterexample: in the rendered diff of a concrete mismatch the
kind markers are the two-character strings "-┃", "+┃" and " ┃", not
three-character ones as claimed. -/
theorem sign_marker_not_three_characters :
    (snap false [("snapshots/k.snap", "a\n")] "k" "b\n").output =
      [header "k", sign ChangeTag.Delete ++ "a\n",
        sign ChangeTag.Insert ++ "b\n", footer "k"] ∧
    (sign ChangeTag.Delete).length = 2 ∧
    (sign ChangeTag.Insert).length = 2 ∧
    (sign ChangeTag.Equal).length = 2 ∧
    ¬ ((sign ChangeTag.Delete).length = 3 ∧ (sign ChangeTag.Insert).length = 3 ∧
        (sign ChangeTag.Equal).length = 3) := by
  refine ⟨?_, rfl, rfl, rfl, by decide⟩
  have hs := snap_lookup_some_ratio_ne false [("snapshots/k.snap", "a\n")]
    "k" "b\n" "a\n" rfl (ratio_ne_one _ _ (by decide))
  rw [hs]
  rfl

/-- C8 as amended: on a mismatch the renderer emits exactly one record
per change of the aligned change sequence, in document order, each
prefixed by a fixed two-character marker determined by the change kind
(deleted, inserted, or unchanged context), the three markers are
pairwise distinct, and unchanged lines are emitted rather than
suppressed. -/
theorem snap_renders_one_line_per_change (ci : Bool) (fs : FS)
    (key subject stored : String)
    (h : lookup fs (snapPath key) = some stored)
    (hne : splitLines stored ≠ splitLines subject) :
    (snap ci fs key subject).output =
      header key ::
        ((diffChanges (splitLines stored) (splitLines subject)).map
          (fun c => sign c.1 ++ c.2) ++ [footer key]) ∧
    (snap ci fs key subject).output.length =
      (diffChanges (splitLines stored) (splitLines subject)).length + 2 ∧
    (∀ t : ChangeTag, (sign t).length = 2) ∧
    sign ChangeTag.Delete ≠ sign ChangeTag.Insert ∧
    sign ChangeTag.Delete ≠ sign ChangeTag.Equal ∧
    sign ChangeTag.Insert ≠ sign ChangeTag.Equal := by
  have hs := snap_lookup_some_ratio_ne ci fs key subject stored h
    (ratio_ne_one _ _ hne)
  refine ⟨by rw [hs]; rfl, ?_, ?_, by decide, by decide, by decide⟩
  · rw [hs]
    show (renderDiff key _).length = _
    unfold renderDiff
    simp
  · intro t
    cases t <;> rfl

/-- Witness for the amended C8: a concrete mismatch renders one record
per change plus the two banners. -/
theorem snap_renders_one_line_per_change_witness :
    (snap false [("snapshots/greet.snap", "hello\n")] "greet"
        "hello world\n").output.length =
      (diffChanges (splitLines "hello\n")
        (splitLines "hello world\n")).length + 2 :=
  (snap_renders_one_line_per_change false
    [("snapshots/greet.snap", "hello\n")] "greet" "hello world\n"
    "hello\n" rfl (by decide)).2.1

/-- C9: the rendered diff of every mismatch is bracketed by a header
banner before the change records and a footer banner after them, and
both banners contain the snapshot key. -/
theorem snap_banners_include_key (ci : Bool) (fs : FS)
    (key subject stored : String)
    (h : lookup fs (snapPath key) = some stored)
    (hne : splitLines stored ≠ splitLines subject) :
    (∃ mid, (snap ci fs key subject).output =
      header key :: (mid ++ [footer key])) ∧
    (∃ p q, header key = p ++ key ++ q) ∧
    (∃ p q, footer key = p ++ key ++ q) := by
  have hs := snap_lookup_some_ratio_ne ci fs key subject stored h
    (ratio_ne_one _ _ hne)
  refine ⟨⟨(diffChanges (splitLines stored) (splitLines subject)).map
      (fun c => sign c.1 ++ c.2), ?_⟩, ⟨" ┏━━━━━━━━ ", " ━━━━━", rfl⟩,
    ⟨" ┗━━━━━━━━ ", " ━━━━━", rfl⟩⟩
  rw [hs]
  rfl

/-- Witness for C9: the banners of a concrete mismatch carry the key. -/
theorem snap_banners_include_key_witness :
    ∃ mid, (snap false [("snapshots/greet.snap", "hello\n")] "greet"
      "hello world\n").output = header "greet" :: (mid ++ [footer "greet"]) :=
  (snap_banners_include_key false [("snapshots/greet.snap", "hello\n")]
    "greet" "hello world\n" "hello\n" rfl (by decide)).1

/-- C10: CI run mode is selected exactly when the CI environment value
is the string "true"; "1", "TRUE" or an absent variable select local
mode.  `option_env!` fixes the value at compile time, which the model
reflects by `snap` taking the resulting flag as a parameter. -/
theorem ciMode_iff_env_true :
    (∀ env : Option String, ciMode env = true ↔ env = some "true") ∧
    ciMode (some "1") = false ∧
    ciMode (some "TRUE") = false ∧
    ciMode none = false := by
  refine ⟨?_, rfl, rfl, rfl⟩
  intro env
  cases env with
  | none => simp [ciMode]
  | some v => simp [ciMode]

end Archetype
